import Mathlib

/-!
# Raymonds-Swim-Quest — verification of the visited-store and derived views

Shallow embedding of the core logic of the repository (storage.js and the
main app file): the visited-record store (`normalizeVisitedMap`,
`readVisited`, `readSelection`, `readStampsPage`), the toggle operation
(`toggleStamp`), the date helpers (`dateKey`, the en-AU clock formatting),
and the derived passport view (`renderStamps`: filter, sort, paginate).

JavaScript objects are embedded as association lists of string keys
(`jsGet`/`upsert`/`jsDelete` mirror property read, assignment and delete);
JSON values as the inductive `JSValue`.  Host functions used by the code
(`JSON.parse`, `Number`, `Intl.DateTimeFormat`, `String.prototype
.localeCompare`, `Array.prototype.sort`) are modelled where the modelled
behaviour is documented on each definition.
-/

/-- A JSON/JavaScript value, as produced by `JSON.parse`.  Numbers are
modelled as integers (no claim involves fractional stored JSON numbers);
`undefined` is represented by an absent key (`Option`). -/
inductive JSValue where
  | null
  | bool (b : Bool)
  | num (n : Int)
  | str (s : String)
  | obj (fields : List (String × JSValue))
deriving Repr

/-- JavaScript truthiness of a `JSValue` (objects are always truthy,
`null`/`false`/`0`/`""` are falsy). -/
def JSValue.truthy : JSValue → Bool
  | .null => false
  | .bool b => b
  | .num n => n != 0
  | .str s => s != ""
  | .obj _ => true

/-- Is the value a string?  (Only strings carry `localeCompare`.) -/
def JSValue.isStr : JSValue → Bool
  | .str _ => true
  | _ => false

/-- JavaScript `ToString` coercion, as applied to a non-string argument of
`localeCompare`.  Modelled from the host: `null` prints as `"null"`,
booleans as `"true"`/`"false"`, numbers in decimal, plain objects as
`"[object Object]"`. -/
def JSValue.jsToString : JSValue → String
  | .null => "null"
  | .bool b => if b then "true" else "false"
  | .num n => toString n
  | .str s => s
  | .obj _ => "[object Object]"

/-- The in-memory visited record of storage.js: `{ done: boolean, date }`.
After normalization `done` is always a boolean; `date` stays an arbitrary
JSON value (`.null` for `null`, `.str` for the usual string dates). -/
structure VisitedRecord where
  done : Bool
  date : JSValue
deriving Repr

/-- The visited map, a JavaScript object keyed by pool id, embedded as an
association list in property-insertion order. -/
abbrev VisitedMap := List (String × VisitedRecord)

/-- Property read `m[k]` on a JavaScript object: the first binding of `k`
(JS objects have unique keys, so first = only). -/
def jsGet {α : Type} : List (String × α) → String → Option α
  | [], _ => none
  | (k', v) :: rest, k => if k' = k then some v else jsGet rest k

/-- Property assignment `m[k] = v` on a JavaScript object: replace the
binding in place if the key exists, else append it. -/
def upsert {α : Type} : List (String × α) → String → α → List (String × α)
  | [], k, v => [(k, v)]
  | (k', v') :: rest, k, v =>
      if k' = k then (k, v) :: rest else (k', v') :: upsert rest k v

/-- Property removal `delete m[k]` on a JavaScript object. -/
def jsDelete {α : Type} : List (String × α) → String → List (String × α)
  | [], _ => []
  | (k', v') :: rest, k => if k' = k then rest else (k', v') :: jsDelete rest k

/-- A well-formed JavaScript object: keys are unique. -/
def KeysNodup {α : Type} (m : List (String × α)) : Prop :=
  (m.map Prod.fst).Nodup

/-- The loop body of storage.js `normalizeVisitedMap`: boolean entries
become `{done: !!val, date: null}`; object entries become
`{done: !!val.done, date: val.date || null}` (a missing field is
`undefined`, hence falsy); other entries are dropped. -/
def normalizeEntry (result : VisitedMap) (kv : String × JSValue) : VisitedMap :=
  match kv.2 with
  | .bool b => upsert result kv.1 ⟨b, .null⟩
  | .obj f =>
      upsert result kv.1
        ⟨((jsGet f "done").map JSValue.truthy).getD false,
         match jsGet f "date" with
         | some dv => if dv.truthy then dv else .null
         | none => .null⟩
  | _ => result

/-- storage.js `normalizeVisitedMap(raw)`: non-objects give `{}`;
otherwise each entry is processed by `normalizeEntry` in key order. -/
def normalizeVisitedMap (raw : JSValue) : VisitedMap :=
  match raw with
  | .obj fields => fields.foldl normalizeEntry []
  | _ => []

/-- storage.js `readVisited()`.  The substrate read is
`Except Unit (Option String)` (`.error` = `localStorage.getItem` threw,
`.ok none` = key absent); `parse` stands for the host `JSON.parse`, with
`none` for a parse exception.  The `catch` branch and the falsy-check
`if (!raw)` both yield `{}`. -/
def readVisited (stored : Except Unit (Option String))
    (parse : String → Option JSValue) : VisitedMap :=
  match stored with
  | .error _ => []
  | .ok none => []
  | .ok (some raw) =>
      if raw = "" then []
      else
        match parse raw with
        | none => []
        | some v => normalizeVisitedMap v

/-- storage.js `countVisited(map)`: entries whose value is truthy with a
truthy `done` field. -/
def countVisited (m : VisitedMap) : Nat :=
  (m.map Prod.snd).filter (fun v => v.done) |>.length

/-- Fixed-width base-10 digit expansion, most significant digit first:
`padDigits k n` is the `k`-digit zero-padded expansion of `n` (faithful for
`n < 10 ^ k`). -/
def padDigits : Nat → Nat → List Nat
  | 0, _ => []
  | k + 1, n => n / 10 ^ k :: padDigits k (n % 10 ^ k)

/-- The ASCII character of a decimal digit. -/
def digitChar (d : Nat) : Char := Char.ofNat (48 + d)

/-- A zero-padded `k`-digit decimal rendering of `n`. -/
def padStr (k n : Nat) : String := String.mk ((padDigits k n).map digitChar)

/-- A reading of the host clock (`new Date()`), reduced to the calendar
date fields the code uses. -/
structure JSDate where
  year : Nat
  month : Nat
  day : Nat

/-- Modelled from the host: `new Intl.DateTimeFormat('en-AU').format(d)`,
the Australian short date `DD/MM/YYYY` (the shape the app's own comments
document, e.g. `"16/12/2025"`). -/
def formatEnAU (d : JSDate) : String :=
  padStr 2 d.day ++ "/" ++ padStr 2 d.month ++ "/" ++ padStr 4 d.year

/-- The optional-chained done test `visited[poolId]?.done` used by both
`toggleStamp` and the `renderStamps` filter (an absent entry is
`undefined`, which is falsy). -/
def doneTest (visited : VisitedMap) (poolId : String) : Bool :=
  ((jsGet visited poolId).map (fun r => r.done)).getD false

/-- app `toggleStamp(poolId)`: `today` is read once from the host clock and
formatted with `Intl.DateTimeFormat('en-AU')`; a present-and-done entry is
deleted, otherwise `{done: true, date: today}` is assigned. -/
def toggleStamp (visited : VisitedMap) (poolId : String) (now : JSDate) :
    VisitedMap :=
  let today := formatEnAU now
  if doneTest visited poolId then
    jsDelete visited poolId
  else
    upsert visited poolId ⟨true, .str today⟩

/-- Shape test for the regex `^\d{4}-\d{2}-\d{2}$` (ISO date). -/
def isoShape : List Char → Bool
  | [a, b, c, d, e, f, g, h, i, j] =>
      a.isDigit && b.isDigit && c.isDigit && d.isDigit && e == '-' &&
      f.isDigit && g.isDigit && h == '-' && i.isDigit && j.isDigit
  | _ => false

/-- Shape test for the regex `^\d{2}\/\d{2}\/\d{4}$` (AU date). -/
def auShape : List Char → Bool
  | [a, b, c, d, e, f, g, h, i, j] =>
      a.isDigit && b.isDigit && c == '/' && d.isDigit && e.isDigit &&
      f == '/' && g.isDigit && h.isDigit && i.isDigit && j.isDigit
  | _ => false

/-- app `dateKey(d)`: `YYYY-MM-DD` drops the dashes, `DD/MM/YYYY` is
rearranged to `YYYYMMDD` (split on `/`, then year ++ month ++ day), and
anything else keeps only its digits.  A falsy (empty) input gives `""`. -/
def dateKey (s : String) : String :=
  if s = "" then ""
  else if isoShape s.data then String.mk (s.data.filter (fun c => c != '-'))
  else if auShape s.data then
    match s.data with
    | [d1, d2, _, m1, m2, _, y1, y2, y3, y4] =>
        String.mk [y1, y2, y3, y4, m1, m2, d1, d2]
    | _ => ""
  else String.mk (s.data.filter Char.isDigit)

/-- The pools of the catalog, restricted to the fields the core logic
reads (`id` for storage keys; `name` stands for the display payload). -/
structure Pool where
  id : String
  name : String
deriving Repr, DecidableEq

/-- Lexicographic (code-point) strict order on character lists. -/
def charListLt : List Char → List Char → Bool
  | [], [] => false
  | [], _ :: _ => true
  | _ :: _, [] => false
  | a :: as, b :: bs =>
      if a < b then true else if b < a then false else charListLt as bs

/-- Modelled from the host: `String.prototype.localeCompare` under the
default locale, on the ASCII digit/slash strings the store produces, where
the collation agrees with code-point order: negative, zero or positive as
the receiver sorts before, equal to, or after the argument. -/
def strCompareInt (a b : String) : Int :=
  if charListLt a.data b.data then -1 else if a = b then 0 else 1

/-- The comparator of `renderStamps`:
`(a, b) => visited[a.id].date.localeCompare(visited[b.id].date)`.
`none` models a thrown `TypeError`: the member access or the
`localeCompare` call fails unless the receiver `visited[a.id].date` is a
string and `visited[b.id]` exists; a non-string argument is coerced with
`ToString`. -/
def cmpVisitedDates (visited : VisitedMap) (a b : Pool) : Option Int :=
  match jsGet visited a.id, jsGet visited b.id with
  | some ra, some rb =>
      match ra.date with
      | .str sa => some (strCompareInt sa rb.date.jsToString)
      | _ => none
  | _, _ => none

/-- Insert `x` into an already sorted list, calling the comparator as
`cmp x y` against each element from the left; `x` is placed before the
first `y` it does not sort strictly after (so equal elements keep the
original order, matching the stability that ES2019 requires of
`Array.prototype.sort`).  A comparator failure (`none`) aborts. -/
def insertM {α : Type} (cmp : α → α → Option Int) (x : α) :
    List α → Option (List α)
  | [] => some [x]
  | y :: ys =>
      match cmp x y with
      | none => none
      | some c =>
          if c ≤ 0 then some (x :: y :: ys)
          else (insertM cmp x ys).map (fun rest => y :: rest)

/-- Stable insertion sort with a fallible comparator: the model of
`Array.prototype.sort(comparefn)`.  A list of fewer than two elements is
returned without consulting the comparator, as any conforming engine
does. -/
def sortM {α : Type} (cmp : α → α → Option Int) : List α → Option (List α)
  | [] => some []
  | x :: xs =>
      match sortM cmp xs with
      | none => none
      | some rest => insertM cmp x rest

/-- The stamp-sequence computation of `renderStamps`:
`pools.filter(p => visited[p.id]?.done).sort((a, b) => ...)`.
`none` models the sort throwing. -/
def renderStampsOrder (pools : List Pool) (visited : VisitedMap) :
    Option (List Pool) :=
  sortM (cmpVisitedDates visited)
    (pools.filter (fun p => doneTest visited p.id))

/-- `renderStamps` shows two stamps per page (`const stampsPerPage = 2`). -/
def stampsPerPage : Nat := 2

/-- The result of the pagination portion of `renderStamps`. -/
structure PaginateResult (α : Type) where
  totalPages : Nat
  clampedIndex : Nat
  page : List α
deriving Repr, DecidableEq

/-- The pagination of `renderStamps`:
`totalPages = Math.max(1, Math.ceil(list.length / stampsPerPage))`,
`currentStampsPage = Math.min(currentStampsPage, totalPages - 1)`, and
`page = list.slice(c * stampsPerPage, c * stampsPerPage + stampsPerPage)`
(`Math.ceil` of the exact division is ceiling division on naturals). -/
def paginate {α : Type} (stamps : List α) (pageIndex : Nat) :
    PaginateResult α :=
  let totalPages := max 1 ((stamps.length + (stampsPerPage - 1)) / stampsPerPage)
  let clamped := min pageIndex (totalPages - 1)
  ⟨totalPages, clamped,
   (stamps.drop (clamped * stampsPerPage)).take stampsPerPage⟩

/-- The result of the host `Number(...)` conversion: a finite value or
`NaN` (non-finite results are folded into `.nan`, which the code treats
identically via `Number.isFinite`). -/
inductive JSNum where
  | finite (q : ℚ)
  | nan
deriving Repr, DecidableEq

/-- JavaScript whitespace, for the trimming that `Number` performs. -/
def isJsWS (c : Char) : Bool :=
  c = ' ' || c = '\t' || c = '\n' || c = '\r'

/-- The numeric value of a list of decimal digit characters. -/
def digitsVal (l : List Char) : Nat :=
  l.foldl (fun a c => 10 * a + (c.toNat - 48)) 0

/-- Split a character list at its first dot, if any. -/
def breakDot : List Char → List Char × Option (List Char)
  | [] => ([], none)
  | c :: rest =>
      if c = '.' then ([], some rest)
      else
        let p := breakDot rest
        (c :: p.1, p.2)

/-- Unsigned decimal literal: digits, optionally with a dot and fractional
digits (at least one digit overall), valued exactly. -/
def parseUnsigned (l : List Char) : Option ℚ :=
  match breakDot l with
  | (ip, none) =>
      if ip ≠ [] ∧ ip.all Char.isDigit then some (digitsVal ip) else none
  | (ip, some fp) =>
      if (ip ≠ [] ∨ fp ≠ []) ∧ ip.all Char.isDigit ∧ fp.all Char.isDigit then
        some ((digitsVal ip : ℚ) + (digitsVal fp : ℚ) / (10 : ℚ) ^ fp.length)
      else none

/-- Modelled from the host: the string branch of `Number(...)`
(`StringToNumber`), restricted to the grammar the store can meet —
whitespace-trimmed, empty means `0`, an optional sign followed by a
decimal literal; every other string is `NaN` (hex, exponent and
`Infinity` forms are outside the model). -/
def jsParseNum (l : List Char) : JSNum :=
  match ((l.dropWhile isJsWS).reverse.dropWhile isJsWS).reverse with
  | [] => .finite 0
  | c :: rest =>
      if c = '-' then
        match parseUnsigned rest with
        | some q => .finite (-q)
        | none => .nan
      else if c = '+' then
        match parseUnsigned rest with
        | some q => .finite q
        | none => .nan
      else
        match parseUnsigned (c :: rest) with
        | some q => .finite q
        | none => .nan

/-- The host conversion applied to the character data of the string. -/
def jsStringToNumber (s : String) : JSNum :=
  jsParseNum s.data

/-- `Number(raw)` where `raw` is `localStorage.getItem`'s result:
`Number(null) = 0`. -/
def jsNumberOfRaw : Option String → JSNum
  | none => .finite 0
  | some s => jsStringToNumber s

/-- The shared body of storage.js `readSelection()` and
`readStampsPage()`: `Number(raw)` guarded by
`Number.isFinite(num) && num >= 0 ? num : 0`, with the whole call wrapped
in try/catch returning 0. -/
def readNonNegIndex (stored : Except Unit (Option String)) : ℚ :=
  match stored with
  | .error _ => 0
  | .ok raw =>
      match jsNumberOfRaw raw with
      | .finite q => if 0 ≤ q then q else 0
      | .nan => 0

/-- storage.js `readSelection()`. -/
def readSelection (stored : Except Unit (Option String)) : ℚ :=
  readNonNegIndex stored

/-- storage.js `readStampsPage()`. -/
def readStampsPage (stored : Except Unit (Option String)) : ℚ :=
  readNonNegIndex stored

/-- Modelled from the spec: text denoting a decimal integer — an optional
sign followed by one or more decimal digits. -/
def isDecimalIntegerText (s : String) : Bool :=
  match s.data with
  | '-' :: r => r ≠ [] && r.all Char.isDigit
  | '+' :: r => r ≠ [] && r.all Char.isDigit
  | l => l ≠ [] && l.all Char.isDigit

/-- Modelled from the spec (glossary): the canonical date form is "the
YYYYMMDD digit-only representation" — eight characters, all digits. -/
def isCanonicalDateForm (s : String) : Bool :=
  s.length = 8 && s.data.all Char.isDigit

/-- A valid calendar date in the range both textual forms can carry:
a four-digit year, a real month, a day number (bounds only; month lengths
do not matter for the ordering claims). -/
def ValidDate (y m d : Nat) : Prop :=
  1 ≤ m ∧ m ≤ 12 ∧ 1 ≤ d ∧ d ≤ 31 ∧ y ≤ 9999

/-- The `YYYY-MM-DD` textual form of a calendar date. -/
def toISO (y m d : Nat) : String :=
  padStr 4 y ++ "-" ++ padStr 2 m ++ "-" ++ padStr 2 d

/-- The `DD/MM/YYYY` textual form of a calendar date. -/
def toAU (y m d : Nat) : String :=
  padStr 2 d ++ "/" ++ padStr 2 m ++ "/" ++ padStr 4 y

/-- Chronological precedence of calendar dates. -/
def ChronLt (y1 m1 d1 y2 m2 d2 : Nat) : Prop :=
  y1 < y2 ∨ (y1 = y2 ∧ (m1 < m2 ∨ (m1 = m2 ∧ d1 < d2)))

/-- The canonical `YYYYMMDD` digit string of a calendar date. -/
def canonKey (y m d : Nat) : String :=
  String.mk ((padDigits 4 y).map digitChar ++
    ((padDigits 2 m).map digitChar ++ (padDigits 2 d).map digitChar))

theorem jsGet_eq_none_of_not_mem {α : Type} {m : List (String × α)} {k : String}
    (h : k ∉ m.map Prod.fst) : jsGet m k = none := by
  induction m with
  | nil => rfl
  | cons kv rest ih =>
      obtain ⟨k', v⟩ := kv
      simp only [List.map_cons, List.mem_cons, not_or] at h
      simp only [jsGet, if_neg (Ne.symm h.1)]
      exact ih h.2

theorem jsGet_upsert_self {α : Type} (m : List (String × α)) (k : String) (v : α) :
    jsGet (upsert m k v) k = some v := by
  induction m with
  | nil => simp [upsert, jsGet]
  | cons kv rest ih =>
      obtain ⟨k', v'⟩ := kv
      by_cases h : k' = k
      · simp [upsert, h, jsGet]
      · simp [upsert, h, jsGet, ih]

theorem keys_upsert {α : Type} (m : List (String × α)) (k : String) (v : α)
    (h : k ∈ m.map Prod.fst) : (upsert m k v).map Prod.fst = m.map Prod.fst := by
  induction m with
  | nil => simp at h
  | cons kv rest ih =>
      obtain ⟨k', v'⟩ := kv
      by_cases he : k' = k
      · simp [upsert, he]
      · simp only [List.map_cons, List.mem_cons] at h
        rcases h with h | h
        · exact absurd h.symm he
        · simp [upsert, he, ih h]

theorem keys_upsert_not_mem {α : Type} (m : List (String × α)) (k : String) (v : α)
    (h : k ∉ m.map Prod.fst) : (upsert m k v).map Prod.fst = m.map Prod.fst ++ [k] := by
  induction m with
  | nil => simp [upsert]
  | cons kv rest ih =>
      obtain ⟨k', v'⟩ := kv
      simp only [List.map_cons, List.mem_cons, not_or] at h
      simp [upsert, if_neg (Ne.symm h.1), ih h.2]

theorem upsert_keysNodup {α : Type} {m : List (String × α)} (k : String) (v : α)
    (h : KeysNodup m) : KeysNodup (upsert m k v) := by
  by_cases hm : k ∈ m.map Prod.fst
  · unfold KeysNodup at h ⊢
    rw [keys_upsert m k v hm]
    exact h
  · unfold KeysNodup at h ⊢
    rw [keys_upsert_not_mem m k v hm]
    simp [List.nodup_append, h, hm]

theorem jsGet_jsDelete_self {α : Type} {m : List (String × α)} (k : String)
    (h : KeysNodup m) : jsGet (jsDelete m k) k = none := by
  induction m with
  | nil => rfl
  | cons kv rest ih =>
      obtain ⟨k', v'⟩ := kv
      unfold KeysNodup at h
      simp only [List.map_cons, List.nodup_cons] at h
      by_cases he : k' = k
      · simp only [jsDelete, if_pos he]
        exact jsGet_eq_none_of_not_mem (he ▸ h.1)
      · simp only [jsDelete, if_neg he, jsGet, if_neg he]
        exact ih h.2


/-- C5: for a well-formed visited set, toggling a present-and-done pool id
removes its entry entirely (no kept `done:false` entry remains); toggling
any other id inserts `{done: true, date: today}`; and toggling an absent
id twice leaves the set with no entry for that id. -/
theorem toggleStamp_removes_or_inserts (v : VisitedMap) (p : String)
    (n1 n2 : JSDate) (hwf : KeysNodup v) :
    (doneTest v p = true → jsGet (toggleStamp v p n1) p = none)
    ∧ (doneTest v p = false →
        jsGet (toggleStamp v p n1) p = some ⟨true, .str (formatEnAU n1)⟩)
    ∧ (jsGet v p = none →
        jsGet (toggleStamp (toggleStamp v p n1) p n2) p = none) := by
  refine ⟨fun hd => ?_, fun hd => ?_, fun habs => ?_⟩
  · simp only [toggleStamp]
    rw [if_pos]
    · exact jsGet_jsDelete_self p hwf
    · exact hd
  · simp only [toggleStamp]
    rw [if_neg (by simp [hd])]
    exact jsGet_upsert_self v p _
  · have hd : doneTest v p = false := by simp [doneTest, habs]
    have h1 : toggleStamp v p n1 = upsert v p ⟨true, .str (formatEnAU n1)⟩ := by
      simp only [toggleStamp]
      rw [if_neg (by simp [hd])]
    rw [h1]
    have hwf2 : KeysNodup (upsert v p ⟨true, .str (formatEnAU n1)⟩) :=
      upsert_keysNodup p _ hwf
    have hg2 : jsGet (upsert v p ⟨true, .str (formatEnAU n1)⟩) p =
        some ⟨true, .str (formatEnAU n1)⟩ := jsGet_upsert_self v p _
    simp only [toggleStamp]
    rw [if_pos (by simp [doneTest, hg2])]
    exact jsGet_jsDelete_self p hwf2

/-- C5 witness -/
theorem toggleStamp_removes_or_inserts_witness :
    jsGet (toggleStamp [("b", ⟨true, JSValue.null⟩)] "b" ⟨2025, 1, 1⟩) "b" = none
    ∧ jsGet (toggleStamp [] "a" ⟨2025, 1, 1⟩) "a" =
        some ⟨true, .str (formatEnAU ⟨2025, 1, 1⟩)⟩
    ∧ formatEnAU ⟨2025, 1, 1⟩ = "01/01/2025"
    ∧ jsGet (toggleStamp (toggleStamp [] "a" ⟨2025, 1, 1⟩) "a" ⟨2025, 1, 2⟩) "a"
        = none :=
  ⟨(toggleStamp_removes_or_inserts [("b", ⟨true, JSValue.null⟩)] "b"
      ⟨2025, 1, 1⟩ ⟨2025, 1, 1⟩ (by simp [KeysNodup])).1 rfl,
   (toggleStamp_removes_or_inserts [] "a" ⟨2025, 1, 1⟩ ⟨2025, 1, 1⟩
      (by simp [KeysNodup])).2.1 rfl,
   rfl,
   (toggleStamp_removes_or_inserts [] "a" ⟨2025, 1, 1⟩ ⟨2025, 1, 2⟩
      (by simp [KeysNodup])).2.2 rfl⟩

theorem jsGet_upsert_ne {α : Type} (m : List (String × α)) {k' k : String}
    (v : α) (h : k' ≠ k) : jsGet (upsert m k' v) k = jsGet m k := by
  induction m with
  | nil => simp [upsert, jsGet, h]
  | cons kv rest ih =>
      obtain ⟨k0, v0⟩ := kv
      by_cases he : k0 = k'
      · simp [upsert, he, jsGet, h]
      · simp only [upsert, if_neg he, jsGet]
        by_cases hk : k0 = k
        · simp [hk]
        · simp [hk, ih]

theorem normalizeEntry_preserves {acc : VisitedMap} {kv : String × JSValue}
    {k : String} (h : kv.1 ≠ k) :
    jsGet (normalizeEntry acc kv) k = jsGet acc k := by
  obtain ⟨k', v⟩ := kv
  cases v with
  | bool b => exact jsGet_upsert_ne acc _ h
  | obj f => exact jsGet_upsert_ne acc _ h
  | null => rfl
  | num n => rfl
  | str s => rfl

theorem foldl_normalizeEntry_preserves {fields : List (String × JSValue)}
    {k : String} (h : ∀ kv ∈ fields, kv.1 ≠ k) (acc : VisitedMap) :
    jsGet (fields.foldl normalizeEntry acc) k = jsGet acc k := by
  induction fields generalizing acc with
  | nil => rfl
  | cons kv rest ih =>
      rw [List.foldl_cons, ih (fun x hx => h x (List.mem_cons_of_mem kv hx))]
      exact normalizeEntry_preserves (h kv (List.mem_cons_self kv rest))

theorem normalizeEntry_keysNodup {acc : VisitedMap} (kv : String × JSValue)
    (h : KeysNodup acc) : KeysNodup (normalizeEntry acc kv) := by
  obtain ⟨k', v⟩ := kv
  cases v with
  | bool b => exact upsert_keysNodup _ _ h
  | obj f => exact upsert_keysNodup _ _ h
  | null => exact h
  | num n => exact h
  | str s => exact h

theorem foldl_normalizeEntry_keysNodup (fields : List (String × JSValue))
    {acc : VisitedMap} (h : KeysNodup acc) :
    KeysNodup (fields.foldl normalizeEntry acc) := by
  induction fields generalizing acc with
  | nil => exact h
  | cons kv rest ih => exact ih (normalizeEntry_keysNodup kv h)

theorem normalizeVisitedMap_keysNodup (raw : JSValue) :
    KeysNodup (normalizeVisitedMap raw) := by
  cases raw with
  | obj fields => exact foldl_normalizeEntry_keysNodup fields (by simp [KeysNodup])
  | null => simp [normalizeVisitedMap, KeysNodup]
  | bool b => simp [normalizeVisitedMap, KeysNodup]
  | num n => simp [normalizeVisitedMap, KeysNodup]
  | str s => simp [normalizeVisitedMap, KeysNodup]

theorem foldl_normalizeEntry_bool {fields : List (String × JSValue)}
    {k : String} {b : Bool}
    (hnd : (fields.map Prod.fst).Nodup) (hmem : (k, JSValue.bool b) ∈ fields)
    (acc : VisitedMap) :
    jsGet (fields.foldl normalizeEntry acc) k = some ⟨b, .null⟩ := by
  induction fields generalizing acc with
  | nil => simp at hmem
  | cons kv rest ih =>
      simp only [List.map_cons, List.nodup_cons] at hnd
      rcases List.mem_cons.mp hmem with heq | hmem'
      · subst heq
        rw [List.foldl_cons]
        have hrest : ∀ kv2 ∈ rest, kv2.1 ≠ k := by
          intro kv2 h2 hk
          have hm2 := List.mem_map_of_mem Prod.fst h2
          rw [hk] at hm2
          exact hnd.1 hm2
        rw [foldl_normalizeEntry_preserves hrest]
        exact jsGet_upsert_self acc k _
      · exact ih hnd.2 hmem' _

/-- C3 amended: on a legacy boolean-keyed object (unique keys, as JSON
objects have), every key mapped to a boolean `b` is kept with the record
`{done: b, date: null}` — `true` gives `{done: true, date: null}`, and
`false` gives `{done: false, date: null}` rather than being dropped. -/
theorem normalize_legacy_bool {fields : List (String × JSValue)} {k : String}
    {b : Bool} (hnd : (fields.map Prod.fst).Nodup)
    (hmem : (k, JSValue.bool b) ∈ fields) :
    jsGet (normalizeVisitedMap (.obj fields)) k = some ⟨b, .null⟩ :=
  foldl_normalizeEntry_bool hnd hmem []

/-- C3 witness -/
theorem normalize_legacy_bool_witness :
    jsGet (normalizeVisitedMap
      (.obj [("a", JSValue.bool true), ("b", JSValue.bool false)])) "a" =
        some ⟨true, .null⟩
    ∧ jsGet (normalizeVisitedMap
      (.obj [("a", JSValue.bool true), ("b", JSValue.bool false)])) "b" =
        some ⟨false, .null⟩ :=
  ⟨normalize_legacy_bool (by simp) (by simp),
   normalize_legacy_bool (by simp) (by simp)⟩

/-- C3 counterexample: a legacy entry mapped to `false` is NOT dropped —
it is kept as `{done: false, date: null}`. -/
theorem normalize_false_kept_counterexample :
    jsGet (normalizeVisitedMap (.obj [("a", JSValue.bool false)])) "a" =
      some ⟨false, .null⟩ := rfl

/-- C8: `readVisited` never propagates a failure — a throwing substrate
read, an absent value, a falsy raw string and an unparsable payload all
give the empty set, and the returned set is a well-formed mapping (unique
keys) for every input. -/
theorem readVisited_never_fails (parse : String → Option JSValue) (s : String) :
    readVisited (.error ()) parse = []
    ∧ readVisited (.ok none) parse = []
    ∧ (parse s = none → readVisited (.ok (some s)) parse = [])
    ∧ ∀ st : Except Unit (Option String), KeysNodup (readVisited st parse) := by
  refine ⟨rfl, rfl, fun hp => ?_, fun st => ?_⟩
  · by_cases hs : s = ""
    · simp [readVisited, hs]
    · simp [readVisited, hs, hp]
  · match st with
    | .error _ => simp [readVisited, KeysNodup]
    | .ok none => simp [readVisited, KeysNodup]
    | .ok (some raw) =>
        by_cases hs : raw = ""
        · simp [readVisited, hs, KeysNodup]
        · simp only [readVisited, if_neg hs]
          match parse raw with
          | none => simp [KeysNodup]
          | some v => exact normalizeVisitedMap_keysNodup v

/-- C8 witness -/
theorem readVisited_never_fails_witness :
    readVisited (.ok (some "x")) (fun _ => none) = []
    ∧ KeysNodup (readVisited (.ok (some "x")) (fun _ => none)) :=
  ⟨(readVisited_never_fails (fun _ => none) "x").2.2.1 rfl,
   (readVisited_never_fails (fun _ => none) "x").2.2.2 _⟩

theorem nat_ceil_half (n : ℕ) : ⌈(n : ℚ) / 2⌉₊ = (n + 1) / 2 := by
  rcases Nat.even_or_odd n with ⟨k, hk⟩ | ⟨k, hk⟩
  · subst hk
    have h1 : ((k + k : ℕ) : ℚ) / 2 = (k : ℚ) := by push_cast; ring
    rw [h1, Nat.ceil_natCast]
    omega
  · subst hk
    have h1 : ((2 * k + 1 : ℕ) : ℚ) / 2 = 1 / 2 + (k : ℕ) := by push_cast; ring
    have h2 : ⌈(1 / 2 : ℚ)⌉₊ = 1 := by
      rw [Nat.ceil_eq_iff (by norm_num)]
      norm_num
    rw [h1, Nat.ceil_add_nat (by norm_num), h2]
    omega

/-- C9: clamping in the pagination of `renderStamps` is idempotent —
re-paginating with an already clamped index returns the same index. -/
theorem paginate_clamp_idempotent {α : Type} (stamps : List α) (i : Nat) :
    (paginate stamps (paginate stamps i).clampedIndex).clampedIndex =
      (paginate stamps i).clampedIndex := by
  simp only [paginate]
  omega

/-- C6: pagination computes `totalPages = max(1, ceil(n / 2))` (stated
with the exact rational ceiling), clamps the stored index to
`min i (totalPages - 1)` (non-negative by construction), returns the slice
`[c*2, c*2+2)`, and in particular 5 stamps with stored index 10 give
`totalPages = 3`, `clampedIndex = 2` and the page `stamps[4..5)`. -/
theorem paginate_spec {α : Type} (stamps : List α) (i : Nat) :
    (paginate stamps i).totalPages = max 1 ⌈(stamps.length : ℚ) / 2⌉₊
    ∧ (paginate stamps i).clampedIndex =
        min i ((paginate stamps i).totalPages - 1)
    ∧ (paginate stamps i).page =
        (stamps.drop ((paginate stamps i).clampedIndex * 2)).take 2
    ∧ (stamps.length = 5 →
        paginate stamps 10 = ⟨3, 2, stamps.drop 4⟩) := by
  refine ⟨?_, rfl, rfl, fun h5 => ?_⟩
  · rw [nat_ceil_half]
    rfl
  · have hlen : (stamps.drop 4).length = 1 := by simp [h5]
    have htk : (stamps.drop 4).take 2 = stamps.drop 4 :=
      List.take_of_length_le (by omega)
    simp [paginate, h5, stampsPerPage, htk]

/-- C6 witness -/
theorem paginate_spec_witness :
    paginate ([0, 1, 2, 3, 4] : List ℕ) 10 = ⟨3, 2, [4]⟩ :=
  (paginate_spec ([0, 1, 2, 3, 4] : List ℕ) 0).2.2.2 rfl

/-- Bridge from core `List.lt` on the character data to the `<` of
`String` (which Mathlib realises through `String.ltb`). -/
theorem string_lt_of_list_lt (a b : String) (h : List.lt a.data b.data) :
    a < b := by
  rw [String.lt_iff_toList_lt]
  have hx : (a.toList < b.toList) =
      List.Lex (fun x y => x < y) a.toList b.toList := rfl
  rw [hx, ← List.lt_iff_lex_lt]
  exact h

theorem list_lt_of_charListLt (a b : List Char) (h : charListLt a b = true) :
    List.lt a b := by
  induction a generalizing b with
  | nil =>
      cases b with
      | nil => simp [charListLt] at h
      | cons c cs => exact List.lt.nil c cs
  | cons x xs ih =>
      cases b with
      | nil => simp [charListLt] at h
      | cons y ys =>
          by_cases hxy : x < y
          · exact List.lt.head xs ys hxy
          · by_cases hyx : y < x
            · simp [charListLt, hxy, hyx] at h
            · refine List.lt.tail hxy hyx (ih ys ?_)
              simpa [charListLt, hxy, hyx] using h

/-- C1: evaluation of the stamp-sequence computation at the failing input.
Pool "a" is visited on 16 Dec 2025, pool "b" on 2 Jan 2026 (dates stored
as the code stores them, in `DD/MM/YYYY` form).  Chronologically — and by
the canonical `YYYYMMDD` key, as the second conjunct shows — "a" precedes
"b", but the code sorts with `localeCompare` on the raw stored strings and
returns "b" first. -/
theorem renderStamps_sorts_raw_not_canonical :
    renderStampsOrder [⟨"a", "A"⟩, ⟨"b", "B"⟩]
      [("a", ⟨true, .str "16/12/2025"⟩), ("b", ⟨true, .str "02/01/2026"⟩)] =
      some [⟨"b", "B"⟩, ⟨"a", "A"⟩]
    ∧ dateKey "16/12/2025" < dateKey "02/01/2026" := by
  refine ⟨rfl, ?_⟩
  have h1 : dateKey "16/12/2025" = "20251216" := rfl
  have h2 : dateKey "02/01/2026" = "20260102" := rfl
  rw [h1, h2]
  apply string_lt_of_list_lt
  apply list_lt_of_charListLt
  decide

theorem padDigits_length (k n : Nat) : (padDigits k n).length = k := by
  induction k generalizing n with
  | zero => rfl
  | succ k ih => simp [padDigits, ih]

theorem padStr_length (k n : Nat) : (padStr k n).length = k := by
  simp [padStr, String.length, padDigits_length]

theorem formatEnAU_length (d : JSDate) : (formatEnAU d).length = 10 := by
  have hs : ("/" : String).length = 1 := rfl
  simp [formatEnAU, String.length_append, padStr_length, hs]

/-- C2 amended: `toggleStamp` computes today once per call from the host
clock in the caller's locale form (en-AU, `DD/MM/YYYY`) and stores that
locale display string unchanged in the inserted record's `date` field; the
stored string is never in the canonical digit-only `YYYYMMDD` form. -/
theorem toggleStamp_stores_locale_form (v : VisitedMap) (p : String)
    (now : JSDate) (h : doneTest v p = false) :
    jsGet (toggleStamp v p now) p = some ⟨true, .str (formatEnAU now)⟩
    ∧ isCanonicalDateForm (formatEnAU now) = false := by
  constructor
  · simp only [toggleStamp]
    rw [if_neg (by simp [h])]
    exact jsGet_upsert_self v p _
  · simp [isCanonicalDateForm, formatEnAU_length]

/-- C2 witness -/
theorem toggleStamp_stores_locale_form_witness :
    jsGet (toggleStamp [] "woolwich" ⟨2025, 12, 16⟩) "woolwich" =
      some ⟨true, .str (formatEnAU ⟨2025, 12, 16⟩)⟩
    ∧ isCanonicalDateForm (formatEnAU ⟨2025, 12, 16⟩) = false :=
  toggleStamp_stores_locale_form [] "woolwich" ⟨2025, 12, 16⟩ rfl

/-- C2 counterexample: toggling an absent pool on 16 Dec 2025 stores the
date `"16/12/2025"` — the locale display form — which is not in the
canonical sortable `YYYYMMDD` form. -/
theorem toggleStamp_counterexample :
    jsGet (toggleStamp [] "woolwich" ⟨2025, 12, 16⟩) "woolwich" =
      some ⟨true, .str "16/12/2025"⟩
    ∧ isCanonicalDateForm "16/12/2025" = false := ⟨rfl, rfl⟩

theorem insertM_length {α : Type} {cmp : α → α → Option Int} {x : α} :
    ∀ {l r : List α}, insertM cmp x l = some r → r.length = l.length + 1 := by
  intro l
  induction l with
  | nil =>
      intro r h
      simp [insertM] at h
      simp [← h]
  | cons y ys ih =>
      intro r h
      cases hc : cmp x y with
      | none => simp [insertM, hc] at h
      | some c =>
          simp only [insertM, hc] at h
          by_cases hle : c ≤ 0
          · rw [if_pos hle] at h
            cases h
            simp
          · rw [if_neg hle] at h
            simp only [Option.map_eq_some'] at h
            obtain ⟨r', hr', hrr⟩ := h
            subst hrr
            simp [ih hr']

theorem sortM_length {α : Type} {cmp : α → α → Option Int} :
    ∀ {l r : List α}, sortM cmp l = some r → r.length = l.length := by
  intro l
  induction l with
  | nil =>
      intro r h
      simp only [sortM, Option.some.injEq] at h
      simp [← h]
  | cons x xs ih =>
      intro r h
      cases hs : sortM cmp xs with
      | none => simp [sortM, hs] at h
      | some rest =>
          simp only [sortM, hs] at h
          have := insertM_length h
          simp [this, ih hs]

theorem sortM_none_of_all_fail {α : Type} {cmp : α → α → Option Int}
    {l : List α} (hlen : 2 ≤ l.length)
    (hfail : ∀ a ∈ l, ∀ b, cmp a b = none) : sortM cmp l = none := by
  match l, hlen with
  | x :: xs, hlen2 =>
      have hxs : 1 ≤ xs.length := by
        simp only [List.length_cons] at hlen2
        omega
      cases hs : sortM cmp xs with
      | none => simp [sortM, hs]
      | some rest =>
          have hr : 1 ≤ rest.length := by rw [sortM_length hs]; exact hxs
          match rest, hr with
          | z :: r', _ =>
              simp [sortM, hs, insertM, hfail x (List.mem_cons_self x xs) z]

theorem cmpVisitedDates_none {visited : VisitedMap} {a : Pool}
    {ra : VisitedRecord} (b : Pool) (hg : jsGet visited a.id = some ra)
    (hstr : ra.date.isStr = false) : cmpVisitedDates visited a b = none := by
  obtain ⟨rdone, rdate⟩ := ra
  unfold cmpVisitedDates
  rw [hg]
  cases hgb : jsGet visited b.id with
  | none =>
      cases rdate with
      | null => rfl
      | bool c => rfl
      | num n => rfl
      | str s => rfl
      | obj f => rfl
  | some rb =>
      cases rdate with
      | null => rfl
      | bool c => rfl
      | num n => rfl
      | str s => simp [JSValue.isStr] at hstr
      | obj f => rfl

/-- C4 amended: whenever at least two catalog pools pass the done filter
and every filtered record's date is a non-string (in particular `null`,
the shape legacy `true` entries get), the sort comparator dereferences a
non-string date as the `localeCompare` receiver and the computation
throws instead of returning a sequence.  (With fewer than two filtered
pools the comparator is never invoked and no exception occurs — see the
counterexample for the original claim.) -/
theorem renderStamps_throws_on_null_dates (pools : List Pool)
    (visited : VisitedMap)
    (hlen : 2 ≤ (pools.filter (fun p => doneTest visited p.id)).length)
    (hnull : ∀ p ∈ pools.filter (fun p => doneTest visited p.id),
        ∀ r, jsGet visited p.id = some r → r.date.isStr = false) :
    renderStampsOrder pools visited = none := by
  apply sortM_none_of_all_fail hlen
  intro a ha b
  have hd : doneTest visited a.id = true := (List.mem_filter.mp ha).2
  simp only [doneTest] at hd
  cases hg : jsGet visited a.id with
  | none => rw [hg] at hd; simp at hd
  | some ra => exact cmpVisitedDates_none b hg (hnull a ha ra hg)

/-- C4 witness -/
theorem renderStamps_throws_on_null_dates_witness :
    renderStampsOrder [⟨"a", "A"⟩, ⟨"b", "B"⟩]
      [("a", ⟨true, .null⟩), ("b", ⟨true, .null⟩)] = none := by
  apply renderStamps_throws_on_null_dates
  · decide
  · intro p hp r hr
    have hp2 : p = (⟨"a", "A"⟩ : Pool) ∨ p = (⟨"b", "B"⟩ : Pool) := by
      simpa using (List.mem_filter.mp hp).1
    rcases hp2 with h | h
    · subst h
      simp only [jsGet] at hr
      simp at hr
      cases hr
      rfl
    · subst h
      simp only [jsGet] at hr
      simp at hr
      cases hr
      rfl

/-- C4 counterexample: a visited set holding exactly one done entry with a
null date (the shape a legacy boolean `true` normalizes to) does NOT make
the computation throw — the singleton is returned without the comparator
ever running. -/
theorem renderStamps_singleton_null_no_throw :
    renderStampsOrder [⟨"a", "A"⟩] [("a", ⟨true, .null⟩)] =
      some [⟨"a", "A"⟩] := rfl

theorem digitChar_lt_iff :
    ∀ a, a < 10 → ∀ b, b < 10 → (digitChar a < digitChar b ↔ a < b) := by
  decide

theorem digitChar_isDigit : ∀ a, a < 10 → (digitChar a).isDigit = true := by
  decide

theorem digitChar_not_lt_self : ∀ a, a < 10 → ¬ digitChar a < digitChar a := by
  decide

theorem padDigits_lt_ten :
    ∀ (k n : Nat), n < 10 ^ k → ∀ d ∈ padDigits k n, d < 10 := by
  intro k
  induction k with
  | zero => intro n _ d hd; simp [padDigits] at hd
  | succ k ih =>
      intro n hn d hd
      simp only [padDigits, List.mem_cons] at hd
      rcases hd with h | h
      · subst h
        have h10 : (10 : ℕ) ^ (k + 1) = 10 * 10 ^ k := by ring
        have hp : 0 < (10 : ℕ) ^ k := Nat.pos_pow_of_pos k (by norm_num)
        rw [h10] at hn
        exact Nat.div_lt_of_lt_mul (by omega)
      · exact ih (n % 10 ^ k)
          (Nat.mod_lt n (Nat.pos_pow_of_pos k (by norm_num))) d h

theorem padDigits_lex :
    ∀ (k a b : Nat), a < b → b < 10 ^ k →
      List.lt ((padDigits k a).map digitChar) ((padDigits k b).map digitChar) := by
  intro k
  induction k with
  | zero =>
      intro a b hab hb
      simp at hb
      omega
  | succ k ih =>
      intro a b hab hb
      have h10 : (10 : ℕ) ^ (k + 1) = 10 * 10 ^ k := by ring
      have hp : 0 < (10 : ℕ) ^ k := Nat.pos_pow_of_pos k (by norm_num)
      have hbd : b / 10 ^ k < 10 := Nat.div_lt_of_lt_mul (by omega)
      have had : a / 10 ^ k < 10 := Nat.div_lt_of_lt_mul (by omega)
      have hle : a / 10 ^ k ≤ b / 10 ^ k := Nat.div_le_div_right (le_of_lt hab)
      simp only [padDigits, List.map_cons]
      rcases Nat.lt_or_ge (a / 10 ^ k) (b / 10 ^ k) with hlt | hge
      · exact List.lt.head _ _
          ((digitChar_lt_iff _ had _ hbd).mpr hlt)
      · have heq : a / 10 ^ k = b / 10 ^ k := le_antisymm hle hge
        have hmod : a % 10 ^ k < b % 10 ^ k := by
          have ha2 := Nat.div_add_mod a (10 ^ k)
          have hb2 := Nat.div_add_mod b (10 ^ k)
          rw [heq] at ha2
          omega
        refine List.lt.tail ?_ ?_ (ih _ _ hmod (Nat.mod_lt b hp))
        · rw [heq]
          exact digitChar_not_lt_self _ hbd
        · rw [heq]
          exact digitChar_not_lt_self _ hbd

theorem list_lt_append_left :
    ∀ (A r1 r2 : List Char), List.lt r1 r2 → List.lt (A ++ r1) (A ++ r2) := by
  intro A r1 r2 h
  induction A with
  | nil => exact h
  | cons c cs ih => exact List.lt.tail (lt_irrefl c) (lt_irrefl c) ih

theorem list_lt_append_of_lt {A1 A2 : List Char} (h : List.lt A1 A2) :
    A1.length = A2.length →
      ∀ r1 r2 : List Char, List.lt (A1 ++ r1) (A2 ++ r2) := by
  induction h with
  | nil b bs => intro hl; simp at hl
  | head as bs hab => intro _ r1 r2; exact List.lt.head _ _ hab
  | tail h1 h2 h3 ih =>
      intro hl r1 r2
      simp only [List.length_cons, Nat.succ.injEq] at hl
      exact List.lt.tail h1 h2 (ih hl r1 r2)

theorem digit_ne_dash (c : Char) (h : c.isDigit = true) : (c != '-') = true := by
  by_contra hne
  simp at hne
  subst hne
  exact absurd h (by decide)

theorem iso_not_dash_filter (c : Char) (h : c.isDigit = true) :
    (decide ¬(c == '-') = true) = true := by
  have := digit_ne_dash c h
  simp_all

theorem dateKey_iso_shape (A B C : List Char) (hA4 : A.length = 4)
    (hB2 : B.length = 2) (hC2 : C.length = 2)
    (hA : ∀ c ∈ A, c.isDigit = true) (hB : ∀ c ∈ B, c.isDigit = true)
    (hC : ∀ c ∈ C, c.isDigit = true) :
    dateKey (String.mk (A ++ '-' :: (B ++ '-' :: C))) =
      String.mk (A ++ (B ++ C)) := by
  match A, hA4, B, hB2, C, hC2 with
  | [a1, a2, a3, a4], _, [b1, b2], _, [c1, c2], _ =>
      have ha1 := hA a1 (by simp)
      have ha2 := hA a2 (by simp)
      have ha3 := hA a3 (by simp)
      have ha4 := hA a4 (by simp)
      have hb1 := hB b1 (by simp)
      have hb2 := hB b2 (by simp)
      have hc1 := hC c1 (by simp)
      have hc2 := hC c2 (by simp)
      simp only [List.cons_append, List.nil_append]
      simp only [dateKey]
      rw [if_neg (by simp [String.ext_iff])]
      rw [if_pos (by
        simp [isoShape, ha1, ha2, ha3, ha4, hb1, hb2, hc1, hc2])]
      congr 1
      simp [List.filter, digit_ne_dash _ ha1, digit_ne_dash _ ha2,
        digit_ne_dash _ ha3, digit_ne_dash _ ha4, digit_ne_dash _ hb1,
        digit_ne_dash _ hb2, digit_ne_dash _ hc1, digit_ne_dash _ hc2]

theorem dateKey_au_shape (A B C : List Char) (hA4 : A.length = 4)
    (hB2 : B.length = 2) (hC2 : C.length = 2)
    (hA : ∀ c ∈ A, c.isDigit = true) (hB : ∀ c ∈ B, c.isDigit = true)
    (hC : ∀ c ∈ C, c.isDigit = true) :
    dateKey (String.mk (C ++ '/' :: (B ++ '/' :: A))) =
      String.mk (A ++ (B ++ C)) := by
  match A, hA4, B, hB2, C, hC2 with
  | [a1, a2, a3, a4], _, [b1, b2], _, [c1, c2], _ =>
      have hc1 := hC c1 (by simp)
      have hc2 := hC c2 (by simp)
      have hb1 := hB b1 (by simp)
      have hb2 := hB b2 (by simp)
      simp only [List.cons_append, List.nil_append]
      simp only [dateKey]
      rw [if_neg (by simp [String.ext_iff])]
      rw [if_neg (by
        simp [isoShape, hc1, hc2, show ('/').isDigit = false from rfl])]
      rw [if_pos (by
        simp [auShape, hc1, hc2, hb1, hb2, hA a1 (by simp), hA a2 (by simp),
          hA a3 (by simp), hA a4 (by simp)])]

theorem map_digitChar_digits (k n : Nat) (h : n < 10 ^ k) :
    ∀ c ∈ (padDigits k n).map digitChar, c.isDigit = true := by
  intro c hc
  rcases List.mem_map.mp hc with ⟨d, hd, hdc⟩
  rw [← hdc]
  exact digitChar_isDigit d (padDigits_lt_ten k n h d hd)

theorem map_digitChar_length (k n : Nat) :
    ((padDigits k n).map digitChar).length = k := by
  simp [padDigits_length]

theorem dateKey_toISO (y m d : Nat) (hy : y < 10000) (hm : m < 100)
    (hd : d < 100) : dateKey (toISO y m d) = canonKey y m d := by
  have h1 : toISO y m d = String.mk ((padDigits 4 y).map digitChar ++
      '-' :: ((padDigits 2 m).map digitChar ++
        '-' :: (padDigits 2 d).map digitChar)) := by
    rw [String.ext_iff]
    simp [toISO, padStr, List.append_assoc,
      show ("-" : String).data = ['-'] from rfl]
  rw [h1, dateKey_iso_shape _ _ _ (map_digitChar_length 4 y)
    (map_digitChar_length 2 m) (map_digitChar_length 2 d)
    (map_digitChar_digits 4 y (by norm_num; omega))
    (map_digitChar_digits 2 m (by norm_num; omega))
    (map_digitChar_digits 2 d (by norm_num; omega))]
  rfl

theorem dateKey_toAU (y m d : Nat) (hy : y < 10000) (hm : m < 100)
    (hd : d < 100) : dateKey (toAU y m d) = canonKey y m d := by
  have h1 : toAU y m d = String.mk ((padDigits 2 d).map digitChar ++
      '/' :: ((padDigits 2 m).map digitChar ++
        '/' :: (padDigits 4 y).map digitChar)) := by
    rw [String.ext_iff]
    simp [toAU, padStr, List.append_assoc,
      show ("/" : String).data = ['/'] from rfl]
  rw [h1, dateKey_au_shape _ _ _ (map_digitChar_length 4 y)
    (map_digitChar_length 2 m) (map_digitChar_length 2 d)
    (map_digitChar_digits 4 y (by norm_num; omega))
    (map_digitChar_digits 2 m (by norm_num; omega))
    (map_digitChar_digits 2 d (by norm_num; omega))]
  rfl

/-- C7: `dateKey` is order-preserving — for valid calendar dates where the
first chronologically precedes the second, each given in either the
`YYYY-MM-DD` or the `DD/MM/YYYY` textual form (any combination), the first
key is lexicographically smaller. -/
theorem dateKey_order_preserving (y1 m1 d1 y2 m2 d2 : Nat) (s1 s2 : String)
    (hv1 : ValidDate y1 m1 d1) (hv2 : ValidDate y2 m2 d2)
    (hc : ChronLt y1 m1 d1 y2 m2 d2)
    (hs1 : s1 = toISO y1 m1 d1 ∨ s1 = toAU y1 m1 d1)
    (hs2 : s2 = toISO y2 m2 d2 ∨ s2 = toAU y2 m2 d2) :
    dateKey s1 < dateKey s2 := by
  obtain ⟨hm1a, hm1b, hd1a, hd1b, hy1⟩ := hv1
  obtain ⟨hm2a, hm2b, hd2a, hd2b, hy2⟩ := hv2
  have hk1 : dateKey s1 = canonKey y1 m1 d1 := by
    rcases hs1 with h | h
    · rw [h]; exact dateKey_toISO y1 m1 d1 (by omega) (by omega) (by omega)
    · rw [h]; exact dateKey_toAU y1 m1 d1 (by omega) (by omega) (by omega)
  have hk2 : dateKey s2 = canonKey y2 m2 d2 := by
    rcases hs2 with h | h
    · rw [h]; exact dateKey_toISO y2 m2 d2 (by omega) (by omega) (by omega)
    · rw [h]; exact dateKey_toAU y2 m2 d2 (by omega) (by omega) (by omega)
  rw [hk1, hk2]
  apply string_lt_of_list_lt
  show List.lt ((padDigits 4 y1).map digitChar ++
      ((padDigits 2 m1).map digitChar ++ (padDigits 2 d1).map digitChar))
    ((padDigits 4 y2).map digitChar ++
      ((padDigits 2 m2).map digitChar ++ (padDigits 2 d2).map digitChar))
  rcases hc with hy | ⟨hyeq, hmc⟩
  · refine list_lt_append_of_lt (padDigits_lex 4 y1 y2 hy ?_) ?_ _ _
    · norm_num
      omega
    · simp [padDigits_length]
  · subst hyeq
    apply list_lt_append_left
    rcases hmc with hm | ⟨hmeq, hd⟩
    · refine list_lt_append_of_lt (padDigits_lex 2 m1 m2 hm ?_) ?_ _ _
      · norm_num
        omega
      · simp [padDigits_length]
    · subst hmeq
      apply list_lt_append_left
      apply padDigits_lex 2 d1 d2 hd
      norm_num
      omega

/-- C7 witness -/
theorem dateKey_order_preserving_witness :
    dateKey "2025-12-16" < dateKey "02/01/2026" := by
  have h1 : ("2025-12-16" : String) = toISO 2025 12 16 := by
    rw [String.ext_iff]
    rfl
  have h2 : ("02/01/2026" : String) = toAU 2026 1 2 := by
    rw [String.ext_iff]
    rfl
  rw [h1, h2]
  exact dateKey_order_preserving 2025 12 16 2026 1 2 _ _
    (by unfold ValidDate; omega) (by unfold ValidDate; omega)
    (by unfold ChronLt; omega) (Or.inl rfl) (Or.inr rfl)

theorem digit_not_ws (c : Char) (h : c.isDigit = true) : isJsWS c = false := by
  cases hw : isJsWS c with
  | false => rfl
  | true =>
      simp only [isJsWS, Bool.or_eq_true, decide_eq_true_eq] at hw
      rcases hw with ((h1 | h1) | h1) | h1 <;> subst h1 <;>
        exact absurd h (by decide)

theorem dropWhile_ws_of_all_digits (l : List Char)
    (h : l.all Char.isDigit = true) : l.dropWhile isJsWS = l := by
  cases l with
  | nil => rfl
  | cons c cs =>
      have hc : c.isDigit = true := by
        simp only [List.all_cons, Bool.and_eq_true] at h
        exact h.1
      simp [List.dropWhile_cons, digit_not_ws c hc]

theorem trim_of_all_digits (l : List Char) (h : l.all Char.isDigit = true) :
    ((l.dropWhile isJsWS).reverse.dropWhile isJsWS).reverse = l := by
  rw [dropWhile_ws_of_all_digits l h,
    dropWhile_ws_of_all_digits l.reverse (by simpa using h),
    List.reverse_reverse]

theorem breakDot_of_all_digits (l : List Char)
    (h : l.all Char.isDigit = true) : breakDot l = (l, none) := by
  induction l with
  | nil => rfl
  | cons c cs ih =>
      simp only [List.all_cons, Bool.and_eq_true] at h
      have hne : c ≠ '.' := by
        intro he
        subst he
        exact absurd h.1 (by decide)
      simp [breakDot, hne, ih h.2]

theorem parseUnsigned_of_all_digits (l : List Char) (hne : l ≠ [])
    (h : l.all Char.isDigit = true) :
    parseUnsigned l = some (digitsVal l) := by
  simp [parseUnsigned, breakDot_of_all_digits l h, hne, h]

theorem jsParseNum_of_all_digits (l : List Char) (hne : l ≠ [])
    (h : l.all Char.isDigit = true) :
    jsParseNum l = .finite (digitsVal l) := by
  unfold jsParseNum
  rw [trim_of_all_digits l h]
  cases l with
  | nil => exact absurd rfl hne
  | cons c cs =>
      simp only [List.all_cons, Bool.and_eq_true] at h
      have hm : c ≠ '-' := by
        intro he; subst he; exact absurd h.1 (by decide)
      have hp : c ≠ '+' := by
        intro he; subst he; exact absurd h.1 (by decide)
      dsimp only
      rw [if_neg hm, if_neg hp,
        parseUnsigned_of_all_digits (c :: cs) (by simp)
          (by simp [h.1, h.2])]
      rfl

theorem jsStringToNumber_of_all_digits (s : String) (hne : s.data ≠ [])
    (h : s.data.all Char.isDigit = true) :
    jsStringToNumber s = .finite (digitsVal s.data) :=
  jsParseNum_of_all_digits s.data hne h

/-- C10 amended: both index readers return 0 when the substrate read
throws, when the value is absent, when the text is not numeric, and when
it denotes a negative value; text denoting a non-negative decimal integer
is returned at its integer value.  (Non-integer numeric text is returned
as parsed, NOT defaulted to 0 — see the counterexample.) -/
theorem readIndex_defaults (s : String) :
    readSelection (.error ()) = 0
    ∧ readStampsPage (.error ()) = 0
    ∧ readSelection (.ok none) = 0
    ∧ readStampsPage (.ok none) = 0
    ∧ (jsStringToNumber s = .nan →
        readSelection (.ok (some s)) = 0 ∧ readStampsPage (.ok (some s)) = 0)
    ∧ (∀ q : ℚ, jsStringToNumber s = .finite q → q < 0 →
        readSelection (.ok (some s)) = 0 ∧ readStampsPage (.ok (some s)) = 0)
    ∧ (s.data ≠ [] → s.data.all Char.isDigit = true →
        readSelection (.ok (some s)) = (digitsVal s.data : ℚ)
        ∧ readStampsPage (.ok (some s)) = (digitsVal s.data : ℚ)) := by
  refine ⟨rfl, rfl, rfl, rfl, fun hn => ?_, fun q hq hneg => ?_,
    fun hne hdig => ?_⟩
  · constructor <;>
      simp [readSelection, readStampsPage, readNonNegIndex, jsNumberOfRaw, hn]
  · constructor <;>
      simp [readSelection, readStampsPage, readNonNegIndex, jsNumberOfRaw, hq,
        if_neg (not_le.mpr hneg)]
  · constructor <;>
      simp [readSelection, readStampsPage, readNonNegIndex, jsNumberOfRaw,
        jsStringToNumber_of_all_digits s hne hdig]

/-- C10 witness -/
theorem readIndex_defaults_witness :
    readSelection (.ok (some "7")) = (digitsVal ("7" : String).data : ℚ)
    ∧ (digitsVal ("7" : String).data : ℚ) = 7
    ∧ readSelection (.ok (some "abc")) = 0
    ∧ readStampsPage (.ok none) = 0 :=
  ⟨((readIndex_defaults "7").2.2.2.2.2.2 (by decide) (by decide)).1,
   by rw [show digitsVal ("7" : String).data = 7 from rfl]; norm_num,
   ((readIndex_defaults "abc").2.2.2.2.1 (by decide)).1,
   (readIndex_defaults "abc").2.2.2.1⟩

/-- C10 counterexample: the persisted text `"1.5"` is not a decimal
integer, yet `readSelection` returns `1.5`, not the default 0. -/
theorem readSelection_fractional_counterexample :
    readSelection (.ok (some "1.5")) = 3 / 2
    ∧ isDecimalIntegerText "1.5" = false
    ∧ (3 / 2 : ℚ) ≠ 0 := by
  refine ⟨?_, rfl, by norm_num⟩
  have hb : breakDot ['1', '.', '5'] = (['1'], some ['5']) := by
    simp [breakDot]
  have hpu : parseUnsigned ['1', '.', '5'] =
      some ((digitsVal ['1'] : ℚ) + (digitsVal ['5'] : ℚ) / (10 : ℚ) ^ 1) := by
    simp [parseUnsigned, hb]
  have htrim : ((['1', '.', '5'].dropWhile isJsWS).reverse.dropWhile
      isJsWS).reverse = ['1', '.', '5'] := by simp [isJsWS]
  have hpn : jsParseNum ['1', '.', '5'] =
      .finite ((digitsVal ['1'] : ℚ) + (digitsVal ['5'] : ℚ) / (10 : ℚ) ^ 1) := by
    unfold jsParseNum
    rw [htrim]
    dsimp only
    rw [if_neg (by decide), if_neg (by decide), hpu]
  have hd1 : digitsVal ['1'] = 1 := rfl
  have hd5 : digitsVal ['5'] = 5 := rfl
  simp only [readSelection, readNonNegIndex, jsNumberOfRaw, jsStringToNumber,
    show ("1.5" : String).data = ['1', '.', '5'] from rfl, hpn, hd1, hd5]
  norm_num
